import Mathlib

/-!
# findrss-go: a verification development for `find.go`

The file embeds the feed-discovery program `find.go` and proves properties of

* the candidate paths built at the start of `findRSSFeed` (lines 91-108),
* the probe URL and the content sniff of one probing goroutine (lines 122-149),
* the fan-out of `findRSSFeed` (lines 110-162) as a step function on an explicit
  state, one step per scheduling decision,
* the batch loop of `main` (lines 44-71), modelled the same way.

Go strings that hold paths and URLs are Lean `String`s: the site URLs come out of
`json.Unmarshal`, which only produces valid UTF-8, and on valid UTF-8 the byte-level
library functions used here (`+`, `strings.TrimRight` with the cutset `"/"`) agree with
their character-level reading.  The sampled response body is an arbitrary byte
sequence and is modelled as a list of byte values.
-/

namespace FindRSS

/-! ## Candidate paths (find.go, lines 91-108) -/

/-- Line 92. -/
def prefixes : List String := ["", "feed/", "feeds/", "rss/", "blog/"]

/-- Line 93. -/
def middles : List String :=
  ["", "all", "atom", "feed", "index", "posts", "posts/default", "rss", "en", "default",
   "rssfeed", "blog"]

/-- Line 94. -/
def suffixes : List String := ["", ".rss", ".atom", ".rss2"]

/-- Line 95. -/
def extensions : List String := ["", ".xml", "?feed=rss2", "?format=atom"]

/-- The four nested `for ... range` loops of lines 98-108 over arbitrary lists: every
loop body threads the slice `paths`, the innermost one appends
`fmt.Sprintf("%s%s%s%s", p, middle, suffix, ext)`. -/
def buildPaths (ps ms ss es : List String) : List String :=
  ps.foldl (fun paths p =>
    ms.foldl (fun paths middle =>
      ss.foldl (fun paths suffix =>
        es.foldl (fun paths ext =>
          paths ++ [p ++ middle ++ suffix ++ ext]) paths) paths) paths) []

/-- The slice `paths` of `findRSSFeed` after line 108. -/
def paths : List String := buildPaths prefixes middles suffixes extensions

/-- Concatenation of one tuple of the cartesian product, in the order
prefix, middle, suffix, extension. -/
def concat4 (t : String × String × String × String) : String :=
  t.1 ++ t.2.1 ++ t.2.2.1 ++ t.2.2.2

/-! ## Probe URL (find.go, line 125) -/

/-- The loop of Go's `trimRightByte`:
`for len(s) > 0 && s[len(s)-1] == c { s = s[:len(s)-1] }`,
with the number of remaining iterations bounded by the first argument. -/
def trimRightLoop (c : Char) : Nat → List Char → List Char
  | 0, s => s
  | n + 1, s => if s.getLast? = some c then trimRightLoop c n s.dropLast else s

/-- Go's `trimRightByte(s, c)`; the loop runs at most `len(s)` times. -/
def trimRightByte (s : String) (c : Char) : String :=
  ⟨trimRightLoop c s.data.length s.data⟩

/-- A string of `k` slashes. -/
def slashes (k : Nat) : String := ⟨List.replicate k '/'⟩

/-- Line 125: `fullURL := strings.TrimRight(url, "/") + "/" + path`.  For the one-byte
ASCII cutset `"/"` Go's `TrimRight` is `trimRightByte(url, '/')`. -/
def fullURL (url path : String) : String :=
  trimRightByte url '/' ++ "/" ++ path

/-- The characters that start every non-empty suffix and extension of lines 94-95. -/
def isSep (c : Char) : Bool := c == '.' || c == '?'

/-! ## Content sniff and one probing goroutine (find.go, lines 122-149) -/

/-- The bytes of an ASCII literal. -/
def bytes (s : String) : List Nat := s.data.map Char.toNat

/-- Go's `strings.HasPrefix` on byte sequences. -/
def HasPrefix : List Nat → List Nat → Bool
  | _, [] => true
  | [], _ :: _ => false
  | a :: s, b :: p => a == b && HasPrefix s p

/-- Leftmost occurrence of `substr` in `s`, counted from offset `i`, or `-1`. -/
def indexFrom (substr : List Nat) : List Nat → Nat → Int
  | [], i => if substr.isEmpty then (i : Int) else -1
  | a :: t, i => if HasPrefix (a :: t) substr then (i : Int) else indexFrom substr t (i + 1)

/-- Go's `strings.Index(s, substr)`. -/
def Index (s substr : List Nat) : Int := indexFrom substr s 0

/-- Go's `strings.Contains(s, substr)`, which is `Index(s, substr) >= 0`. -/
def Contains (s substr : List Nat) : Bool := decide (0 ≤ Index s substr)

/-- The error value returned by `resp.Body.Read(buf)` (line 135). -/
inductive ReadErr
  | nil
  | eof
  | other
  deriving DecidableEq

/-- What a successful `client.Get` gives the goroutine: the URL of the final request
(`resp.Request.URL.String()`, after redirects), the bytes the first `Read` delivers and
the error that `Read` returns. -/
structure Response where
  finalURL : String
  body : List Nat
  readErr : ReadErr

/-- Result of `client.Get(fullURL)` (line 127): an error or a response. -/
inductive GetResult
  | err
  | ok (resp : Response)

/-- Line 139: `content := string(buf[:n])`, where `buf` has 512 bytes. -/
def sampled (resp : Response) : List Nat := resp.body.take 512

/-- The condition of line 142. -/
def looksLikeFeed (content : List Nat) : Bool :=
  !Contains content (bytes "xhtml") &&
    (Contains content (bytes "feed") || Contains content (bytes "xml"))

/-- Lines 127-148 of one probing goroutine, as a function of what `client.Get` gave:
`some finalURL` is the value the goroutine tries to publish (classification Found),
`none` means that it returns without publishing (NotFound). -/
def probeTask : GetResult → Option String
  | GetResult.err => none
  | GetResult.ok resp =>
    if resp.readErr ≠ ReadErr.nil ∧ resp.readErr ≠ ReadErr.eof then none
    else if looksLikeFeed (sampled resp) then some resp.finalURL
    else none

/-- The network as seen by one call of `findRSSFeed`: what `client.Get` returns to the
goroutine of candidate number `j` for the URL it requests. -/
abbrev Net := Nat → String → GetResult

/-- Classification of candidate number `j` under base URL `url`: lines 125-148. -/
def probe (url : String) (net : Net) (j : Nat) : Option String :=
  probeTask (net j (fullURL url (paths.getD j "")))

/-! ## The fan-out of `findRSSFeed` (find.go, lines 110-162) -/

/-- Capacity of both `semaphore` channels (lines 45 and 116). -/
def cap : Nat := 10

/-- State of one call of `findRSSFeed` after line 116.  `published` and `dropped` are
history variables: the values whose send on `rssChan` went through, and those that took
the `default` branch of the `select`, oldest first. -/
structure RState where
  next : Nat
  semaphore : Nat
  running : List Nat
  wg : Nat
  rssChan : Option String
  closed : Bool
  ret : Option String
  published : List String
  dropped : List String
  deriving DecidableEq

/-- State after line 116: nothing launched, `rssChan` empty and open. -/
def rinit : RState :=
  { next := 0, semaphore := 0, running := [], wg := 0, rssChan := none, closed := false,
    ret := none, published := [], dropped := [] }

/-- Scheduling decisions of `findRSSFeed`. -/
inductive RAction
  /-- One iteration of the loop of line 119: `wg.Add(1)`, acquire, `go`. -/
  | launch
  /-- Goroutine `j` runs lines 125-148 and its deferred calls. -/
  | finish (j : Nat)
  /-- The watcher of lines 153-156: `wg.Wait()` returns and `rssChan` is closed. -/
  | close
  /-- The receive of line 159 and the `return` that follows. -/
  | recv

/-- Lines 144-147: `select { case rssChan <- finalURL: default: }` on the one-slot
channel. -/
def publish (u : String) (s : RState) : RState :=
  if s.rssChan = none then
    { s with rssChan := some u, published := s.published ++ [u] }
  else
    { s with dropped := s.dropped ++ [u] }

/-- The deferred calls of goroutine `j`: `<-semaphore`, then `wg.Done()`. -/
def taskExit (j : Nat) (s : RState) : RState :=
  { s with semaphore := s.semaphore - 1, wg := s.wg - 1, running := s.running.erase j }

/-- One step of `findRSSFeed`; `none` when the action is not enabled (a blocked send or
receive, a goroutine that does not exist, a send on the closed channel). -/
def rstep (url : String) (net : Net) : RAction → RState → Option RState
  | RAction.launch, s =>
    if s.next < paths.length ∧ s.semaphore < cap then
      some { s with next := s.next + 1, semaphore := s.semaphore + 1, wg := s.wg + 1,
                    running := s.next :: s.running }
    else none
  | RAction.finish j, s =>
    if j ∈ s.running then
      match probe url net j with
      | none => some (taskExit j s)
      | some u => if s.closed then none else some (taskExit j (publish u s))
    else none
  | RAction.close, s =>
    if s.next = paths.length ∧ s.wg = 0 ∧ s.closed = false then
      some { s with closed := true }
    else none
  | RAction.recv, s =>
    if s.next = paths.length ∧ s.ret = none then
      match s.rssChan with
      | some u => some { s with ret := some u, rssChan := none }
      | none => if s.closed then some { s with ret := some "" } else none
    else none

/-- States of `findRSSFeed` reachable under some schedule. -/
inductive RReachable (url : String) (net : Net) : RState → Prop
  | init : RReachable url net rinit
  | step {s s' : RState} (a : RAction) :
      RReachable url net s → rstep url net a s = some s' → RReachable url net s'

/-- Runs a list of scheduling decisions. -/
def rrun (url : String) (net : Net) : List RAction → RState → Option RState
  | [], s => some s
  | a :: as, s =>
    match rstep url net a s with
    | some s' => rrun url net as s'
    | none => none

/-- The value that `findRSSFeed(url)` returns when its goroutines are scheduled as
`sched`; `none` when `sched` asks for a step that is not enabled or stops before the
`return`. -/
def findRSSFeed (url : String) (net : Net) (sched : List RAction) : Option String :=
  match rrun url net sched rinit with
  | some s => s.ret
  | none => none

/-- A bound on the number of steps that `findRSSFeed` can still take. -/
def rmeasure (s : RState) : Nat :=
  2 * (paths.length - s.next) + s.running.length
    + (if s.closed then 0 else 1) + (if s.ret = none then 1 else 0)

/-- Invariant of `findRSSFeed`. -/
structure RInv (url : String) (net : Net) (s : RState) : Prop where
  nle : s.next ≤ paths.length
  sem : s.semaphore = s.running.length
  wg : s.wg = s.running.length
  capb : s.running.length ≤ cap
  nodup : s.running.Nodup
  run : ∀ j ∈ s.running, j < s.next
  closed : s.closed = true → s.next = paths.length ∧ s.running = []
  slot : s.ret = none → s.rssChan = s.published.head? ∧ s.published.length ≤ 1
  chan : ∀ v, s.rssChan = some v → s.published ≠ []
  ret : ∀ r, s.ret = some r →
    s.published.head? = some r ∨ (r = "" ∧ s.published = [] ∧ s.closed = true)
  pub : ∀ u ∈ s.published, ∃ j, j < paths.length ∧ probe url net j = some u
  found : ∀ j, j < s.next → j ∉ s.running → probe url net j ≠ none → s.published ≠ []

/-! ## Concrete runs of `findRSSFeed` -/

/-- The state in which the first `k` candidates have been probed one after the other
without a hit and nothing is in flight. -/
def idle (k : Nat) : RState :=
  { next := k, semaphore := 0, running := [], wg := 0, rssChan := none, closed := false,
    ret := none, published := [], dropped := [] }

/-- A network on which every request fails. -/
def netDown : Net := fun _ _ => GetResult.err

/-- A network on which only the last two candidates, numbers 958 and 959, answer, both
with the start of an XML document. -/
def netTwo : Net := fun j _ =>
  if j = 958 then GetResult.ok ⟨"https://example.com/a", bytes "<?xml", ReadErr.eof⟩
  else if j = 959 then GetResult.ok ⟨"https://example.com/b", bytes "<?xml", ReadErr.eof⟩
  else GetResult.err

/-- The state of `findRSSFeed` after its return on `netDown`: every candidate probed,
`rssChan` closed and empty, the empty string returned. -/
def returnedEmpty : RState :=
  { next := paths.length, semaphore := 0, running := [], wg := 0, rssChan := none, closed := true,
    ret := some "", published := [], dropped := [] }

/-- A state of `findRSSFeed` on `netTwo`: candidate 958 has published and its URL has
been returned, then candidate 959 has published into the slot that the receive had
emptied. -/
def twoPublished : RState :=
  { next := 960, semaphore := 0, running := [], wg := 0, rssChan := some "https://example.com/b",
    closed := false, ret := some "https://example.com/a",
    published := ["https://example.com/a", "https://example.com/b"], dropped := [] }

/-- A state of `findRSSFeed` with two probes in flight. -/
def twoInFlight : RState :=
  { next := 2, semaphore := 2, running := [1, 0], wg := 2, rssChan := none, closed := false,
    ret := none, published := [], dropped := [] }

/-! ## The batch loop of `main` (find.go, lines 44-71) -/

/-- Lines 16-19. -/
structure Site where
  URL : String
  RSS : String
  deriving DecidableEq

/-- The marker written at line 66. -/
def NO_RSS_FEED : String := "NO_RSS_FEED"

/-- The condition of line 50, under which the loop `continue`s. -/
def skips (site : Site) : Bool := site.RSS != "" && site.RSS != NO_RSS_FEED

/-- What `findRSSFeed` returns to the goroutine of site number `j` for the URL it is
given. -/
abbrev Resolver := Nat → String → String

/-- Lines 60-67: the value the goroutine stores in `site.RSS`. -/
def resolved (rssLink : String) : String :=
  if rssLink != "" then rssLink else NO_RSS_FEED

/-- State of the batch loop of `main`. -/
structure MState where
  sites : List Site
  i : Nat
  semaphore : Nat
  running : List Nat
  wg : Nat
  waited : Bool
  deriving DecidableEq

/-- State before the loop of line 48. -/
def minit (sites : List Site) : MState :=
  { sites := sites, i := 0, semaphore := 0, running := [], wg := 0, waited := false }

/-- Scheduling decisions of the batch loop. -/
inductive MAction
  /-- One iteration of the loop of line 48: `continue`, or `wg.Add(1)`, acquire, `go`. -/
  | iter
  /-- The goroutine of site `j` runs lines 57-67 and its deferred calls. -/
  | finish (j : Nat)
  /-- Line 71: `wg.Wait()` returns. -/
  | wait

/-- One step of the batch loop; `none` when the action is not enabled. -/
def mstep (find : Resolver) : MAction → MState → Option MState
  | MAction.iter, s =>
    match s.sites[s.i]? with
    | none => none
    | some site =>
      if skips site then some { s with i := s.i + 1 }
      else if s.semaphore < cap then
        some { s with i := s.i + 1, semaphore := s.semaphore + 1, wg := s.wg + 1,
                      running := s.i :: s.running }
      else none
  | MAction.finish j, s =>
    if j ∈ s.running then
      match s.sites[j]? with
      | none => none
      | some site =>
        some { s with sites := s.sites.set j { site with RSS := resolved (find j site.URL) },
                      semaphore := s.semaphore - 1, wg := s.wg - 1, running := s.running.erase j }
    else none
  | MAction.wait, s =>
    if s.i = s.sites.length ∧ s.wg = 0 ∧ s.waited = false then
      some { s with waited := true }
    else none

/-- States of the batch loop reachable from the list `sites` under some schedule. -/
inductive MReachable (sites : List Site) (find : Resolver) : MState → Prop
  | init : MReachable sites find (minit sites)
  | step {s s' : MState} (a : MAction) :
      MReachable sites find s → mstep find a s = some s' → MReachable sites find s'

/-- Runs a list of scheduling decisions of the batch loop. -/
def mrun (find : Resolver) : List MAction → MState → Option MState
  | [], s => some s
  | a :: as, s =>
    match mstep find a s with
    | some s' => mrun find as s'
    | none => none

/-- The slice `sites` after line 71 of `main` when the loop and its goroutines are
scheduled as `sched`; `none` when `sched` asks for a step that is not enabled or stops
before `wg.Wait()` has returned. -/
def mainLoop (sites : List Site) (find : Resolver) (sched : List MAction) :
    Option (List Site) :=
  match mrun find sched (minit sites) with
  | some s => if s.waited then some s.sites else none
  | none => none

/-- A bound on the number of steps that the batch loop can still take. -/
def mmeasure (s : MState) : Nat :=
  2 * (s.sites.length - s.i) + s.running.length + (if s.waited then 0 else 1)

/-- Invariant of the batch loop. -/
structure MInv (sites : List Site) (find : Resolver) (s : MState) : Prop where
  len : s.sites.length = sites.length
  ile : s.i ≤ sites.length
  sem : s.semaphore = s.running.length
  wg : s.wg = s.running.length
  capb : s.running.length ≤ cap
  nodup : s.running.Nodup
  run : ∀ j ∈ s.running, j < s.i ∧ s.sites[j]? = sites[j]? ∧
    ∃ site, sites[j]? = some site ∧ skips site = false
  skip : ∀ (k : Nat) (site : Site), sites[k]? = some site → skips site = true → s.sites[k]? = some site
  todo : ∀ k : Nat, s.i ≤ k → s.sites[k]? = sites[k]?
  done : ∀ (k : Nat) (site : Site), sites[k]? = some site → skips site = false → k < s.i → k ∉ s.running →
    s.sites[k]? = some { site with RSS := resolved (find k site.URL) }
  waited : s.waited = true → s.i = sites.length ∧ s.running = []

/-! ## Concrete runs of the batch loop -/

/-- A resolver that finds the same feed for every site. -/
def findFeed : Resolver := fun _ _ => "https://example.com/feed/"

/-- A resolver that finds nothing. -/
def findNothing : Resolver := fun _ _ => ""

/-- A site list whose only record already holds a feed. -/
def sitesKnown : List Site := [⟨"https://example.com", "https://example.com/rss.xml"⟩]

/-- A site list whose only record has no feed field. -/
def sitesFresh : List Site := [⟨"https://example.com", ""⟩]

/-- A site list whose only record holds the marker of a former unsuccessful run. -/
def sitesMarked : List Site := [⟨"https://example.com", "NO_RSS_FEED"⟩]

/-! ## Lemmas on the candidate paths -/

theorem foldl_append_flatMap {α β : Type} (g : α → List β) (l : List α) (init : List β) :
    l.foldl (fun acc x => acc ++ g x) init = init ++ l.flatMap g := by
  induction l generalizing init with
  | nil => simp
  | cons a l ih => simp [ih, List.append_assoc]

theorem length_product_eq {α β : Type} (l₁ : List α) (l₂ : List β) :
    (List.product l₁ l₂).length = l₁.length * l₂.length :=
  List.length_product l₁ l₂

theorem flatMap_singleton_map {α β : Type} (f : α → β) (l : List α) :
    l.flatMap (fun x => [f x]) = l.map f := by
  induction l with
  | nil => rfl
  | cons a l ih => simp [ih]

theorem buildPaths_eq_map (ps ms ss es : List String) :
    buildPaths ps ms ss es
      = (List.product ps (List.product ms (List.product ss es))).map concat4 := by
  unfold buildPaths
  simp only [foldl_append_flatMap, List.nil_append, flatMap_singleton_map]
  simp only [List.product, List.map_flatMap, List.flatMap_map, List.map_map]
  rfl

theorem takeWhile_dropWhile_split (q : Char → Bool) (a b : List Char)
    (ha : ∀ c ∈ a, q c = true) (hb : ∀ c, b.head? = some c → q c = false) :
    (a ++ b).takeWhile q = a ∧ (a ++ b).dropWhile q = b := by
  induction a with
  | nil =>
    cases b with
    | nil => simp
    | cons c b =>
      have hc := hb c rfl
      simp [List.takeWhile, List.dropWhile, hc]
  | cons x a ih =>
    have hx := ha x (List.mem_cons_self _ _)
    have ih2 := ih (fun c hc => ha c (List.mem_cons_of_mem _ hc))
    simp [List.takeWhile, List.dropWhile, hx, ih2]

set_option maxRecDepth 10000 in
theorem stem_nodup :
    ((List.product prefixes middles).map (fun x => x.1 ++ x.2)).Nodup := by decide

theorem tail_nodup :
    ((List.product suffixes extensions).map (fun x => x.1 ++ x.2)).Nodup := by decide

set_option maxRecDepth 10000 in
theorem stem_chars :
    ∀ x ∈ List.product prefixes middles, ∀ c ∈ (x.1 ++ x.2).data, isSep c = false := by
  decide

theorem tail_head :
    ∀ x ∈ List.product suffixes extensions, ∀ c, (x.1 ++ x.2).data.head? = some c →
      isSep c = true := by
  have h : ∀ x ∈ List.product suffixes extensions,
      (x.1 ++ x.2).data.head? ∈ [none, some '.', some '?'] := by decide
  intro x hx c hc
  have := h x hx
  rw [hc] at this
  simp at this
  rcases this with rfl | rfl <;> rfl

theorem concat4_injOn :
    ∀ x ∈ List.product prefixes (List.product middles (List.product suffixes extensions)),
    ∀ y ∈ List.product prefixes (List.product middles (List.product suffixes extensions)),
      concat4 x = concat4 y → x = y := by
  rintro ⟨p, m, s, e⟩ hx ⟨p', m', s', e'⟩ hy h
  simp only [List.pair_mem_product] at hx hy
  obtain ⟨hp, hm, hs, he⟩ := hx
  obtain ⟨hp', hm', hs', he'⟩ := hy
  have hpm : (p, m) ∈ List.product prefixes middles := List.pair_mem_product.2 ⟨hp, hm⟩
  have hpm' : (p', m') ∈ List.product prefixes middles := List.pair_mem_product.2 ⟨hp', hm'⟩
  have hse : (s, e) ∈ List.product suffixes extensions := List.pair_mem_product.2 ⟨hs, he⟩
  have hse' : (s', e') ∈ List.product suffixes extensions :=
    List.pair_mem_product.2 ⟨hs', he'⟩
  have hd : (p ++ m).data ++ (s ++ e).data = (p' ++ m').data ++ (s' ++ e').data := by
    have := congrArg String.data h
    simpa [concat4, String.data_append, List.append_assoc] using this
  have h1 := takeWhile_dropWhile_split (fun c => !isSep c) (p ++ m).data (s ++ e).data
    (fun c hc => by simp [stem_chars _ hpm c hc])
    (fun c hc => by simp [tail_head _ hse c hc])
  have h2 := takeWhile_dropWhile_split (fun c => !isSep c) (p' ++ m').data (s' ++ e').data
    (fun c hc => by simp [stem_chars _ hpm' c hc])
    (fun c hc => by simp [tail_head _ hse' c hc])
  rw [hd] at h1
  have e1 : p ++ m = p' ++ m' := String.ext (h1.1.symm.trans h2.1)
  have e2 : s ++ e = s' ++ e' := String.ext (h1.2.symm.trans h2.2)
  have k1 := List.inj_on_of_nodup_map stem_nodup hpm hpm' e1
  have k2 := List.inj_on_of_nodup_map tail_nodup hse hse' e2
  simp only [Prod.mk.injEq] at k1 k2
  obtain ⟨rfl, rfl⟩ := k1
  obtain ⟨rfl, rfl⟩ := k2
  rfl

/-- C1: the candidate paths built in `findRSSFeed` are, in order and hence with
multiplicity, the concatenations prefix+middle+suffix+extension over the cartesian
product of the four lists (5, 12, 4 and 4 entries, each holding the empty string);
there are 5*12*4*4 = 960 of them and the empty string is one. -/
theorem paths_cartesian_product :
    paths = (List.product prefixes
              (List.product middles (List.product suffixes extensions))).map concat4
    ∧ (∀ s, paths.count s = ((List.product prefixes
              (List.product middles (List.product suffixes extensions))).map concat4).count s)
    ∧ prefixes.length = 5 ∧ middles.length = 12 ∧ suffixes.length = 4
    ∧ extensions.length = 4
    ∧ "" ∈ prefixes ∧ "" ∈ middles ∧ "" ∈ suffixes ∧ "" ∈ extensions
    ∧ paths.length = 5 * 12 * 4 * 4 ∧ paths.length = 960 ∧ "" ∈ paths := by
  have h := buildPaths_eq_map prefixes middles suffixes extensions
  have hl : paths.length = 960 := by
    unfold paths
    rw [h]
    have h5 : prefixes.length = 5 := rfl
    have h12 : middles.length = 12 := rfl
    have h4 : suffixes.length = 4 := rfl
    have h4e : extensions.length = 4 := rfl
    simp only [List.length_map, length_product_eq, h5, h12, h4, h4e]
  have hp : "" ∈ prefixes := by decide
  have hm : "" ∈ middles := by decide
  have hs : "" ∈ suffixes := by decide
  have he : "" ∈ extensions := by decide
  refine ⟨h, fun s => by rw [paths, h], rfl, rfl, rfl, rfl, hp, hm, hs, he, hl, hl, ?_⟩
  unfold paths
  rw [h]
  exact List.mem_map.2 ⟨("", "", "", ""),
    List.pair_mem_product.2 ⟨hp, List.pair_mem_product.2 ⟨hm,
      List.pair_mem_product.2 ⟨hs, he⟩⟩⟩, rfl⟩

/-- C2: the 960 candidate paths are pairwise distinct: two different
(prefix, middle, suffix, extension) tuples never concatenate to the same string, and
the list `paths` has no duplicates. -/
theorem paths_nodup :
    (∀ x ∈ List.product prefixes (List.product middles (List.product suffixes extensions)),
     ∀ y ∈ List.product prefixes (List.product middles (List.product suffixes extensions)),
      x ≠ y → concat4 x ≠ concat4 y)
    ∧ paths.Nodup ∧ paths.length = 960 := by
  refine ⟨fun x hx y hy hne h => hne (concat4_injOn x hx y hy h), ?_, ?_⟩
  · unfold paths
    rw [buildPaths_eq_map]
    refine List.Nodup.map_on concat4_injOn ?_
    refine List.Nodup.product (by decide) (List.Nodup.product (by decide) ?_)
    exact List.Nodup.product (by decide) (by decide)
  · unfold paths
    rw [buildPaths_eq_map]
    have h5 : prefixes.length = 5 := rfl
    have h12 : middles.length = 12 := rfl
    have h4 : suffixes.length = 4 := rfl
    have h4e : extensions.length = 4 := rfl
    simp only [List.length_map, length_product_eq, h5, h12, h4, h4e]

/-! ## Lemmas on the probe URL -/

theorem trimRightLoop_of_split (c : Char) (r : List Char) (hr : r.getLast? ≠ some c) :
    ∀ (k n : Nat), r.length + k ≤ n → trimRightLoop c n (r ++ List.replicate k c) = r := by
  intro k
  induction k with
  | zero =>
    intro n _
    cases n with
    | zero => simp [trimRightLoop]
    | succ n => simp [trimRightLoop, hr]
  | succ k ih =>
    intro n hn
    cases n with
    | zero => omega
    | succ n =>
      have e : r ++ List.replicate (k + 1) c = (r ++ List.replicate k c) ++ [c] := by
        rw [List.replicate_succ', List.append_assoc]
      rw [e]
      simp only [trimRightLoop, List.getLast?_append, List.getLast?_singleton,
        List.dropLast_concat]
      simp
      exact ih n (by omega)

theorem trimRightLoop_split (c : Char) :
    ∀ (n : Nat) (s : List Char), s.length ≤ n →
      ∃ k, s = trimRightLoop c n s ++ List.replicate k c ∧
        (trimRightLoop c n s).getLast? ≠ some c := by
  intro n
  induction n with
  | zero =>
    intro s hs
    have : s = [] := List.length_eq_zero.1 (by omega)
    subst this
    exact ⟨0, by simp [trimRightLoop], by simp [trimRightLoop]⟩
  | succ n ih =>
    intro s hs
    by_cases h : s.getLast? = some c
    · have hd : s = s.dropLast ++ [c] := (List.dropLast_append_getLast? c h).symm
      obtain ⟨k, hk, hl⟩ := ih s.dropLast (by simp; omega)
      refine ⟨k + 1, ?_, ?_⟩
      · simp only [trimRightLoop, h, if_true]
        rw [List.replicate_succ', ← List.append_assoc, ← hk]
        exact hd
      · simpa only [trimRightLoop, h, if_true] using hl
    · exact ⟨0, by simp [trimRightLoop, h], by simp [trimRightLoop, h]⟩

theorem trimRightByte_split (url : String) :
    ∃ k, url = trimRightByte url '/' ++ slashes k ∧
      (trimRightByte url '/').data.getLast? ≠ some '/' := by
  obtain ⟨k, hk, hl⟩ := trimRightLoop_split '/' url.data.length url.data (le_refl _)
  refine ⟨k, ?_, hl⟩
  apply String.ext
  simpa [trimRightByte, slashes, String.data_append] using hk

theorem trimRightByte_of_split (base : String) (k : Nat)
    (hb : base.data.getLast? ≠ some '/') :
    trimRightByte (base ++ slashes k) '/' = base := by
  apply String.ext
  simp only [trimRightByte, slashes, String.data_append]
  exact trimRightLoop_of_split '/' base.data hb k _ (by simp)

theorem slashes_add (j k : Nat) : slashes j ++ slashes k = slashes (j + k) := by
  apply String.ext
  rw [String.data_append]
  show List.replicate j '/' ++ List.replicate k '/' = List.replicate (j + k) '/'
  exact List.append_replicate_replicate

theorem trimRightByte_append_slashes (url : String) (k : Nat) :
    trimRightByte (url ++ slashes k) '/' = trimRightByte url '/' := by
  obtain ⟨j, hj, hl⟩ := trimRightByte_split url
  have e : url ++ slashes k = trimRightByte url '/' ++ slashes (j + k) := by
    rw [← slashes_add, ← String.append_assoc, ← hj]
  rw [e]
  exact trimRightByte_of_split _ _ hl

/-- C9: the probe URL of line 125 is the base URL without its trailing slashes, then
one slash, then the candidate path; adding any number of trailing slashes to the base
URL does not change the probe URL, as for `https://example.com` and
`https://example.com/` with the path `feed/`. -/
theorem fullURL_trims_trailing_slashes (url path : String) :
    (∃ base k, url = base ++ slashes k ∧ base.data.getLast? ≠ some '/' ∧
        fullURL url path = base ++ "/" ++ path)
    ∧ (∀ k, fullURL (url ++ slashes k) path = fullURL url path)
    ∧ fullURL "https://example.com" "feed/" = "https://example.com/feed/"
    ∧ fullURL "https://example.com/" "feed/" = "https://example.com/feed/"
    ∧ fullURL "https://example.com///" "feed/" = "https://example.com/feed/" := by
  refine ⟨?_, ?_, by decide, by decide, by decide⟩
  · obtain ⟨k, hk, hl⟩ := trimRightByte_split url
    exact ⟨trimRightByte url '/', k, hk, hl, rfl⟩
  · intro k
    simp only [fullURL, trimRightByte_append_slashes]

/-! ## Lemmas on the content sniff -/

theorem HasPrefix_iff (p : List Nat) : ∀ s : List Nat, HasPrefix s p = true ↔ p <+: s := by
  induction p with
  | nil => intro s; cases s <;> simp [HasPrefix]
  | cons b p ih =>
    intro s
    cases s with
    | nil => simp [HasPrefix]
    | cons a s =>
      simp only [HasPrefix, Bool.and_eq_true, beq_iff_eq, ih, List.cons_prefix_cons]
      constructor
      · rintro ⟨h1, h2⟩; exact ⟨h1.symm, h2⟩
      · rintro ⟨h1, h2⟩; exact ⟨h1.symm, h2⟩

theorem indexFrom_nonneg_iff (substr : List Nat) :
    ∀ (s : List Nat) (i : Nat), 0 ≤ indexFrom substr s i ↔ substr <:+: s := by
  intro s
  induction s with
  | nil =>
    intro i
    cases substr with
    | nil => simp [indexFrom]
    | cons b p => simp [indexFrom]
  | cons a t ih =>
    intro i
    rw [List.infix_cons_iff, ← HasPrefix_iff, ← ih (i + 1)]
    by_cases h : HasPrefix (a :: t) substr = true
    · simp [indexFrom, h]
    · simp [indexFrom, h]

theorem Contains_iff (s substr : List Nat) : Contains s substr = true ↔ substr <:+: s := by
  simp [Contains, Index, indexFrom_nonneg_iff]

theorem looksLikeFeed_iff (content : List Nat) :
    looksLikeFeed content = true ↔
      (bytes "feed" <:+: content ∨ bytes "xml" <:+: content) ∧
        ¬ bytes "xhtml" <:+: content := by
  simp only [looksLikeFeed, Bool.and_eq_true, Bool.or_eq_true, Bool.not_eq_true',
    Contains_iff, ← Bool.not_eq_true]
  tauto

/-- C3: when the read of line 135 returns no error other than EOF, the goroutine
classifies its candidate as Found exactly when the sampled content (at most 512 bytes)
contains "feed" or "xml" and does not contain "xhtml", and it then publishes the final
URL; content that contains "xhtml" is NotFound also when it contains "xml" or "feed". -/
theorem probeTask_found_iff (resp : Response)
    (hread : resp.readErr = ReadErr.nil ∨ resp.readErr = ReadErr.eof) :
    (sampled resp).length ≤ 512
    ∧ ((probeTask (GetResult.ok resp)).isSome = true ↔
        (bytes "feed" <:+: sampled resp ∨ bytes "xml" <:+: sampled resp) ∧
          ¬ bytes "xhtml" <:+: sampled resp)
    ∧ (probeTask (GetResult.ok resp) = some resp.finalURL ∨
        probeTask (GetResult.ok resp) = none)
    ∧ (bytes "xhtml" <:+: sampled resp → probeTask (GetResult.ok resp) = none) := by
  have hne : ¬ (resp.readErr ≠ ReadErr.nil ∧ resp.readErr ≠ ReadErr.eof) := by
    rcases hread with h | h <;> simp [h]
  have hl := looksLikeFeed_iff (sampled resp)
  refine ⟨by simp [sampled], ?_, ?_, ?_⟩
  · rw [← hl]
    by_cases h : looksLikeFeed (sampled resp) = true
    · simp [probeTask, hne, h]
    · simp [probeTask, hne, h]
  · by_cases h : looksLikeFeed (sampled resp) = true
    · left; simp [probeTask, hne, h]
    · right; simp [probeTask, hne, h]
  · intro hx
    have : ¬ looksLikeFeed (sampled resp) = true := fun h => (hl.1 h).2 hx
    simp [probeTask, hne, this]

/-- Witness of C3: a page whose first bytes are an XHTML namespace declaration contains
"xml" and "xhtml" and is NotFound. -/
theorem probeTask_found_iff_witness :
    bytes "xml" <:+: sampled ⟨"https://example.com/feed", bytes "<html xmlns=xhtml>", ReadErr.eof⟩
    ∧ probeTask (GetResult.ok
        ⟨"https://example.com/feed", bytes "<html xmlns=xhtml>", ReadErr.eof⟩) = none :=
  ⟨(Contains_iff _ _).1 (by decide),
   (probeTask_found_iff ⟨"https://example.com/feed", bytes "<html xmlns=xhtml>", ReadErr.eof⟩
      (Or.inr rfl)).2.2.2 ((Contains_iff _ _).1 (by decide))⟩

/-! ## The batch loop: invariant -/

theorem MInv_init (sites : List Site) (find : Resolver) : MInv sites find (minit sites) := by
  refine ⟨rfl, Nat.zero_le _, rfl, rfl, Nat.zero_le _, List.nodup_nil, ?_, ?_, ?_, ?_, ?_⟩
  · intro j hj; simp [minit] at hj
  · intro k site h _; simpa [minit] using h
  · intro k _; rfl
  · intro k site _ _ hk; simp [minit] at hk
  · intro h; simp [minit] at h

theorem MInv_step (sites : List Site) (find : Resolver) (a : MAction) (s s' : MState)
    (inv : MInv sites find s) (h : mstep find a s = some s') : MInv sites find s' := by
  cases a with
  | iter =>
    simp only [mstep] at h
    cases hsi : s.sites[s.i]? with
    | none => simp [hsi] at h
    | some site =>
      have hlt : s.i < sites.length := by
        have := (List.getElem?_eq_some.1 hsi).1
        rw [inv.len] at this; exact this
      have horig : sites[s.i]? = some site := by rw [← inv.todo s.i (le_refl _)]; exact hsi
      simp only [hsi] at h
      by_cases hsk : skips site = true
      · simp only [hsk, if_true, Option.some.injEq] at h
        subst h
        refine ⟨inv.len, hlt, inv.sem, inv.wg, inv.capb, inv.nodup, ?_, inv.skip, ?_, ?_, ?_⟩
        · intro j hj
          obtain ⟨h1, h2⟩ := inv.run j hj
          exact ⟨Nat.lt_succ_of_lt h1, h2⟩
        · intro k hk; exact inv.todo k (Nat.le_of_succ_le hk)
        · intro k st hk hns hlt' hnr
          have hki : k < s.i ∨ k = s.i := Nat.lt_succ_iff_lt_or_eq.1 hlt'
          rcases hki with hki | hki
          · exact inv.done k st hk hns hki hnr
          · subst hki
            rw [horig] at hk
            cases hk
            rw [hsk] at hns; cases hns
        · intro hw
          have := (inv.waited hw).1
          omega
      · have hsk' : skips site = false := by simpa using hsk
        simp only [hsk', Bool.false_eq_true, if_false] at h
        by_cases hc : s.semaphore < cap
        · simp only [hc, if_true, Option.some.injEq] at h
          subst h
          have hnot : s.i ∉ s.running := fun hm => Nat.lt_irrefl _ (inv.run _ hm).1
          refine ⟨inv.len, hlt, ?_, ?_, ?_, ?_, ?_, inv.skip, ?_, ?_, ?_⟩
          · simp [inv.sem]
          · simp [inv.wg]
          · have := inv.sem; simp only [List.length_cons]; omega
          · exact List.nodup_cons.2 ⟨hnot, inv.nodup⟩
          · intro j hj
            rcases List.mem_cons.1 hj with rfl | hj
            · exact ⟨Nat.lt_succ_self _, inv.todo _ (le_refl _), site, horig, hsk'⟩
            · obtain ⟨h1, h2⟩ := inv.run j hj
              exact ⟨Nat.lt_succ_of_lt h1, h2⟩
          · intro k hk; exact inv.todo k (Nat.le_of_succ_le hk)
          · intro k st hk hns hlt' hnr
            have hne : k ≠ s.i := fun e => hnr (e ▸ List.mem_cons_self _ _)
            have hki : k < s.i := by
              rcases Nat.lt_succ_iff_lt_or_eq.1 hlt' with h1 | h1
              · exact h1
              · exact absurd h1 hne
            exact inv.done k st hk hns hki (fun hm => hnr (List.mem_cons_of_mem _ hm))
          · intro hw
            have := (inv.waited hw).1
            omega
        · simp [hc] at h
  | finish j =>
    simp only [mstep] at h
    by_cases hj : j ∈ s.running
    · simp only [hj, if_true] at h
      obtain ⟨hji, hsame, site0, hsite0, hns0⟩ := inv.run j hj
      cases hsj : s.sites[j]? with
      | none => simp [hsj] at h
      | some site =>
        have hst : site0 = site := by
          rw [hsame, hsite0] at hsj; exact Option.some.inj hsj
        subst hst
        simp only [hsj, Option.some.injEq] at h
        subst h
        have hmem : ∀ k, k ∈ s.running.erase j ↔ k ≠ j ∧ k ∈ s.running :=
          fun k => inv.nodup.mem_erase_iff
        have hset : ∀ k, k ≠ j → ∀ x : Site, (s.sites.set j x)[k]? = s.sites[k]? :=
          fun k hk x => List.getElem?_set_ne (Ne.symm hk)
        have hlen : (s.running.erase j).length = s.running.length - 1 :=
          List.length_erase_of_mem hj
        refine ⟨?_, inv.ile, ?_, ?_, ?_, inv.nodup.erase j, ?_, ?_, ?_, ?_, ?_⟩
        · simp [inv.len]
        · simp [inv.sem, hlen]
        · simp [inv.wg, hlen]
        · have := inv.capb; simp only [hlen]; omega
        · intro k hk
          obtain ⟨hkj, hkr⟩ := (hmem k).1 hk
          obtain ⟨h1, h2, h3⟩ := inv.run k hkr
          refine ⟨h1, ?_, h3⟩
          show (s.sites.set j _)[k]? = sites[k]?
          rw [hset k hkj]; exact h2
        · intro k st hk hsk
          have hkj : k ≠ j := by
            rintro rfl
            rw [hsite0] at hk; cases hk
            rw [hns0] at hsk; cases hsk
          show (s.sites.set j _)[k]? = some st
          rw [hset k hkj]; exact inv.skip k st hk hsk
        · intro k hk
          have hkj : k ≠ j := by
            have : j < k := Nat.lt_of_lt_of_le hji hk
            omega
          show (s.sites.set j _)[k]? = sites[k]?
          rw [hset k hkj]; exact inv.todo k hk
        · intro k st hk hns hlt hnr
          by_cases hkj : k = j
          · subst hkj
            rw [hsite0] at hk; cases hk
            have hjl : k < s.sites.length := (List.getElem?_eq_some.1 hsj).1
            show (s.sites.set k _)[k]? = _
            rw [List.getElem?_set_self hjl]
          · have hnr' : k ∉ s.running := fun hm => hnr ((hmem k).2 ⟨hkj, hm⟩)
            show (s.sites.set j _)[k]? = _
            rw [hset k hkj]; exact inv.done k st hk hns hlt hnr'
        · intro hw
          have := (inv.waited hw).2
          rw [this] at hj; cases hj
    · simp [hj] at h
  | wait =>
    simp only [mstep] at h
    by_cases hc : s.i = s.sites.length ∧ s.wg = 0 ∧ s.waited = false
    · rw [if_pos hc] at h
      cases h
      refine ⟨inv.len, inv.ile, inv.sem, inv.wg, inv.capb, inv.nodup, inv.run, inv.skip,
        inv.todo, inv.done, ?_⟩
      intro _
      refine ⟨by rw [← inv.len]; exact hc.1, ?_⟩
      have := inv.wg
      rw [hc.2.1] at this
      exact List.length_eq_zero.1 this.symm
    · simp [hc] at h

theorem MInv_of_reachable (sites : List Site) (find : Resolver) (s : MState)
    (h : MReachable sites find s) : MInv sites find s := by
  induction h with
  | init => exact MInv_init sites find
  | step a _ hs ih => exact MInv_step sites find a _ _ ih hs

theorem skips_iff (site : Site) :
    skips site = true ↔ site.RSS ≠ "" ∧ site.RSS ≠ "NO_RSS_FEED" := by
  simp [skips, NO_RSS_FEED]

theorem skips_false_iff (site : Site) :
    skips site = false ↔ site.RSS = "" ∨ site.RSS = "NO_RSS_FEED" := by
  rw [← Bool.not_eq_true, skips_iff]
  by_cases h : site.RSS = "" <;> simp [h]

theorem resolved_ne_empty (rssLink : String) : resolved rssLink ≠ "" := by
  unfold resolved
  by_cases h : rssLink = ""
  · subst h; decide
  · simp [h]

theorem resolved_eq (rssLink : String) :
    resolved rssLink = if rssLink ≠ "" then rssLink else "NO_RSS_FEED" := by
  unfold resolved
  by_cases h : rssLink = ""
  · subst h; rfl
  · simp [h]

theorem mstep_progress (sites : List Site) (find : Resolver) (s : MState)
    (inv : MInv sites find s) (hw : s.waited = false) :
    ∃ a s', mstep find a s = some s' := by
  have hfin : ∀ j, j ∈ s.running → ∃ a s', mstep find a s = some s' := by
    intro j hj
    obtain ⟨hji, hsame, site0, hsite0, _⟩ := inv.run j hj
    refine ⟨MAction.finish j, ?_⟩
    simp only [mstep, hj, if_true, hsame, hsite0]
    exact ⟨_, rfl⟩
  by_cases hi : s.i < sites.length
  · have hsi : ∃ site, s.sites[s.i]? = some site := by
      rw [inv.todo s.i (le_refl _)]
      exact ⟨sites[s.i], List.getElem?_eq_getElem hi⟩
    obtain ⟨site, hsite⟩ := hsi
    by_cases hsk : skips site = true
    · refine ⟨MAction.iter, ?_⟩
      simp only [mstep, hsite, hsk, if_true]
      exact ⟨_, rfl⟩
    · have hsk' : skips site = false := by simpa using hsk
      by_cases hc : s.semaphore < cap
      · refine ⟨MAction.iter, ?_⟩
        simp only [mstep, hsite, hsk', hc, if_true, Bool.false_eq_true, if_false]
        exact ⟨_, rfl⟩
      · have hpos : 0 < s.running.length := by
          have := inv.sem
          have : 0 < cap := by decide
          omega
        obtain ⟨j, hj⟩ := List.exists_mem_of_length_pos hpos
        exact hfin j hj
  · have hil : s.i = sites.length := le_antisymm inv.ile (not_lt.1 hi)
    cases hr : s.running with
    | nil =>
      have hwg : s.wg = 0 := by rw [inv.wg, hr]; rfl
      have hc : s.i = s.sites.length ∧ s.wg = 0 ∧ s.waited = false :=
        ⟨by rw [inv.len]; exact hil, hwg, hw⟩
      refine ⟨MAction.wait, { s with waited := true }, ?_⟩
      simp only [mstep]
      rw [if_pos hc]
    | cons j t => exact hfin j (by rw [hr]; exact List.mem_cons_self _ _)

theorem mstep_measure (find : Resolver) (a : MAction) (s s' : MState)
    (h : mstep find a s = some s') :
    mmeasure s' < mmeasure s := by
  cases a with
  | iter =>
    simp only [mstep] at h
    cases hsi : s.sites[s.i]? with
    | none => simp [hsi] at h
    | some site =>
      have hlt : s.i < s.sites.length := (List.getElem?_eq_some.1 hsi).1
      simp only [hsi] at h
      by_cases hsk : skips site = true
      · simp only [hsk, if_true, Option.some.injEq] at h
        subst h
        simp only [mmeasure]
        omega
      · have hsk' : skips site = false := by simpa using hsk
        by_cases hc : s.semaphore < cap
        · simp only [hsk', hc, if_true, Bool.false_eq_true, if_false,
            Option.some.injEq] at h
          subst h
          simp only [mmeasure, List.length_cons]
          omega
        · simp [hsk', hc] at h
  | finish j =>
    simp only [mstep] at h
    by_cases hj : j ∈ s.running
    · simp only [hj, if_true] at h
      cases hsj : s.sites[j]? with
      | none => simp [hsj] at h
      | some site =>
        simp only [hsj, Option.some.injEq] at h
        subst h
        have hlen : (s.running.erase j).length = s.running.length - 1 :=
          List.length_erase_of_mem hj
        have hpos : 0 < s.running.length := List.length_pos_of_mem hj
        simp only [mmeasure, List.length_set, hlen]
        omega
    · simp [hj] at h
  | wait =>
    simp only [mstep] at h
    by_cases hc : s.i = s.sites.length ∧ s.wg = 0 ∧ s.waited = false
    · rw [if_pos hc] at h
      cases h
      simp [mmeasure, hc.2.2]
    · simp [hc] at h

theorem mrun_reachable (sites : List Site) (find : Resolver) :
    ∀ (as : List MAction) (s s' : MState), MReachable sites find s →
      mrun find as s = some s' → MReachable sites find s' := by
  intro as
  induction as with
  | nil =>
    intro s s' hs h
    simp only [mrun, Option.some.injEq] at h
    subst h
    exact hs
  | cons a as ih =>
    intro s s' hs h
    simp only [mrun] at h
    cases hstep : mstep find a s with
    | none => simp [hstep] at h
    | some s1 =>
      simp only [hstep] at h
      exact ih s1 s' (MReachable.step a hs hstep) h

theorem mrun_complete (sites : List Site) (find : Resolver) :
    ∀ (n : Nat) (s : MState), MInv sites find s → mmeasure s ≤ n →
      ∃ sched s', mrun find sched s = some s' ∧ s'.waited = true := by
  intro n
  induction n with
  | zero =>
    intro s inv hn
    cases hw : s.waited with
    | true => exact ⟨[], s, rfl, hw⟩
    | false =>
      obtain ⟨a, s1, h1⟩ := mstep_progress sites find s inv hw
      have := mstep_measure find a s s1 h1
      omega
  | succ n ih =>
    intro s inv hn
    cases hw : s.waited with
    | true => exact ⟨[], s, rfl, hw⟩
    | false =>
      obtain ⟨a, s1, h1⟩ := mstep_progress sites find s inv hw
      have hlt := mstep_measure find a s s1 h1
      obtain ⟨sched, s2, h2, hw2⟩ := ih s1 (MInv_step sites find a s s1 inv h1) (by omega)
      refine ⟨a :: sched, s2, ?_, hw2⟩
      simp only [mrun, h1]
      exact h2

theorem mainLoop_reachable (sites : List Site) (find : Resolver) (sched : List MAction)
    (out : List Site) (h : mainLoop sites find sched = some out) :
    ∃ s, MReachable sites find s ∧ s.waited = true ∧ s.sites = out := by
  unfold mainLoop at h
  cases hr : mrun find sched (minit sites) with
  | none => simp [hr] at h
  | some s =>
    simp only [hr] at h
    by_cases hw : s.waited = true
    · rw [if_pos hw] at h
      exact ⟨s, mrun_reachable sites find sched _ s MReachable.init hr, hw,
        Option.some.inj h⟩
    · rw [if_neg hw] at h; cases h

theorem mainLoop_complete (sites : List Site) (find : Resolver) :
    ∃ sched out, mainLoop sites find sched = some out := by
  obtain ⟨sched, s, h, hw⟩ :=
    mrun_complete sites find _ (minit sites) (MInv_init sites find) (le_refl _)
  refine ⟨sched, s.sites, ?_⟩
  unfold mainLoop
  simp only [h]
  rw [if_pos hw]

/-! ## The batch loop: claims -/

/-- C4: for every list of sites and every behaviour of `findRSSFeed`, a site whose feed
field is non-empty and not "NO_RSS_FEED" holds, in every state that the batch loop of
`main` can reach, the record it had before the loop, and has no goroutine: it is never
passed to `findRSSFeed`.  In particular it is unchanged in the slice that every
complete run of the loop leaves. -/
theorem known_sites_unchanged (sites : List Site) (find : Resolver) (k : Nat) (site : Site)
    (hk : sites[k]? = some site)
    (hfeed : site.RSS ≠ "" ∧ site.RSS ≠ "NO_RSS_FEED") :
    (∀ s, MReachable sites find s → s.sites[k]? = some site ∧ k ∉ s.running)
    ∧ (∀ sched out, mainLoop sites find sched = some out → out[k]? = some site) := by
  have hsk : skips site = true := (skips_iff site).2 hfeed
  have key : ∀ s, MReachable sites find s → s.sites[k]? = some site ∧ k ∉ s.running := by
    intro s hs
    have inv := MInv_of_reachable sites find s hs
    refine ⟨inv.skip k site hk hsk, fun hm => ?_⟩
    obtain ⟨_, _, site0, h0, hns⟩ := inv.run k hm
    rw [hk] at h0
    cases h0
    rw [hsk] at hns
    cases hns
  refine ⟨key, ?_⟩
  intro sched out h
  obtain ⟨s, hs, _, rfl⟩ := mainLoop_reachable sites find sched out h
  exact (key s hs).1

/-- Witness of C4: the one known site is untouched by the run that skips it and then
waits. -/
theorem known_sites_unchanged_witness :
    mainLoop sitesKnown findFeed [MAction.iter, MAction.wait] = some sitesKnown
    ∧ sitesKnown[0]? = some ⟨"https://example.com", "https://example.com/rss.xml"⟩ :=
  have hrun : mainLoop sitesKnown findFeed [MAction.iter, MAction.wait] = some sitesKnown :=
    by decide
  ⟨hrun, (known_sites_unchanged sitesKnown findFeed 0
    ⟨"https://example.com", "https://example.com/rss.xml"⟩ rfl (by decide)).2 _ _ hrun⟩

/-- C5: the batch loop always comes to an end (before `wg.Wait()` has returned some step
is enabled, every step lowers `mmeasure`, and a complete run exists), and after every
complete run each site whose feed field was empty or "NO_RSS_FEED" has been resolved:
its feed field is not empty, it is the result of `findRSSFeed` on the site's URL when
that result is not empty and "NO_RSS_FEED" when it is. -/
theorem eligible_sites_resolved (sites : List Site) (find : Resolver) :
    (∀ s, MReachable sites find s →
      (s.waited = false → ∃ a s', mstep find a s = some s') ∧
      (∀ a s', mstep find a s = some s' → mmeasure s' < mmeasure s))
    ∧ (∃ sched out, mainLoop sites find sched = some out)
    ∧ (∀ sched out, mainLoop sites find sched = some out →
        ∀ (k : Nat) (site : Site), sites[k]? = some site →
        site.RSS = "" ∨ site.RSS = "NO_RSS_FEED" →
        ∃ site', out[k]? = some site' ∧ site'.URL = site.URL ∧ site'.RSS ≠ "" ∧
          site'.RSS = if find k site.URL ≠ "" then find k site.URL else "NO_RSS_FEED") := by
  refine ⟨fun s hs => ?_, mainLoop_complete sites find, ?_⟩
  · have inv := MInv_of_reachable sites find s hs
    exact ⟨mstep_progress sites find s inv, fun a s' h => mstep_measure find a s s' h⟩
  · intro sched out h k site hk hel
    obtain ⟨s, hs, hw, rfl⟩ := mainLoop_reachable sites find sched out h
    have inv := MInv_of_reachable sites find s hs
    obtain ⟨hi, hrun⟩ := inv.waited hw
    have hlt : k < s.i := by
      rw [hi]; exact (List.getElem?_eq_some.1 hk).1
    have hd := inv.done k site hk ((skips_false_iff site).2 hel) hlt (by rw [hrun]; simp)
    exact ⟨_, hd, rfl, resolved_ne_empty _, resolved_eq _⟩

/-- Witness of C5: a fresh site for which a feed is found, and a fresh site for which
none is found. -/
theorem eligible_sites_resolved_witness :
    (mainLoop sitesFresh findFeed [MAction.iter, MAction.finish 0, MAction.wait]
        = some [⟨"https://example.com", "https://example.com/feed/"⟩]
      ∧ ∃ site', ([⟨"https://example.com", "https://example.com/feed/"⟩] : List Site)[0]?
          = some site' ∧ site'.URL = "https://example.com" ∧ site'.RSS ≠ "" ∧
        site'.RSS = if findFeed 0 "https://example.com" ≠ "" then
          findFeed 0 "https://example.com" else "NO_RSS_FEED")
    ∧ mainLoop sitesFresh findNothing [MAction.iter, MAction.finish 0, MAction.wait]
        = some [⟨"https://example.com", "NO_RSS_FEED"⟩] :=
  have hrun : mainLoop sitesFresh findFeed [MAction.iter, MAction.finish 0, MAction.wait]
      = some [⟨"https://example.com", "https://example.com/feed/"⟩] := by decide
  ⟨⟨hrun, (eligible_sites_resolved sitesFresh findFeed).2.2 _ _ hrun 0
    ⟨"https://example.com", ""⟩ rfl (Or.inl rfl)⟩, by decide⟩

/-- C6 fails on the code: a site marked "NO_RSS_FEED" is not skipped by the condition of
line 50; it gets a goroutine, is passed to `findRSSFeed` again, and its feed field is
overwritten with the result. -/
theorem marked_site_is_resolved_again :
    skips ⟨"https://example.com", "NO_RSS_FEED"⟩ = false
    ∧ mrun findFeed [MAction.iter] (minit sitesMarked) = some
        { sites := sitesMarked, i := 1, semaphore := 1, running := [0], wg := 1,
          waited := false }
    ∧ mainLoop sitesMarked findFeed [MAction.iter, MAction.finish 0, MAction.wait]
        = some [⟨"https://example.com", "https://example.com/feed/"⟩] :=
  ⟨by decide, by decide, by decide⟩

/-! ## `findRSSFeed`: invariant -/

theorem paths_length : paths.length = 960 := by
  unfold paths
  rw [buildPaths_eq_map]
  have h5 : prefixes.length = 5 := rfl
  have h12 : middles.length = 12 := rfl
  have h4 : suffixes.length = 4 := rfl
  have h4e : extensions.length = 4 := rfl
  simp only [List.length_map, length_product_eq, h5, h12, h4, h4e]

theorem publish_frame (u : String) (s : RState) :
    (publish u s).next = s.next ∧ (publish u s).semaphore = s.semaphore ∧
    (publish u s).running = s.running ∧ (publish u s).wg = s.wg ∧
    (publish u s).closed = s.closed ∧ (publish u s).ret = s.ret := by
  unfold publish
  split <;> exact ⟨rfl, rfl, rfl, rfl, rfl, rfl⟩

theorem publish_free (u : String) (s : RState) (h : s.rssChan = none) :
    (publish u s).rssChan = some u ∧ (publish u s).published = s.published ++ [u] ∧
    (publish u s).dropped = s.dropped := by
  unfold publish
  rw [if_pos h]
  exact ⟨rfl, rfl, rfl⟩

theorem publish_full (u : String) (s : RState) (h : s.rssChan ≠ none) :
    (publish u s).rssChan = s.rssChan ∧ (publish u s).published = s.published ∧
    (publish u s).dropped = s.dropped ++ [u] := by
  unfold publish
  rw [if_neg h]
  exact ⟨rfl, rfl, rfl⟩

theorem RInv_init (url : String) (net : Net) : RInv url net rinit := by
  refine ⟨Nat.zero_le _, rfl, rfl, Nat.zero_le _, List.nodup_nil, ?_, ?_, ?_, ?_, ?_, ?_, ?_⟩
  · intro j hj; simp [rinit] at hj
  · intro h; simp [rinit] at h
  · intro _; exact ⟨rfl, Nat.zero_le _⟩
  · intro v h; simp [rinit] at h
  · intro r h; simp [rinit] at h
  · intro u h; simp [rinit] at h
  · intro j h; simp [rinit] at h

theorem RInv_taskExit (url : String) (net : Net) (j : Nat) (s : RState)
    (inv : RInv url net s) (hj : j ∈ s.running)
    (hf : probe url net j ≠ none → s.published ≠ []) :
    RInv url net (taskExit j s) := by
  have hmem : ∀ k, k ∈ s.running.erase j ↔ k ≠ j ∧ k ∈ s.running :=
    fun k => inv.nodup.mem_erase_iff
  have hlen : (s.running.erase j).length = s.running.length - 1 :=
    List.length_erase_of_mem hj
  have hnc : s.closed = false := by
    cases hc : s.closed with
    | false => rfl
    | true =>
      have := (inv.closed hc).2
      rw [this] at hj; cases hj
  refine ⟨inv.nle, ?_, ?_, ?_, inv.nodup.erase j, ?_, ?_, inv.slot, inv.chan, inv.ret,
    inv.pub, ?_⟩
  · simp [taskExit, inv.sem, hlen]
  · simp [taskExit, inv.wg, hlen]
  · have := inv.capb
    simp only [taskExit, hlen]; omega
  · intro k hk; exact inv.run k ((hmem k).1 hk).2
  · intro hc
    simp only [taskExit] at hc
    rw [hnc] at hc; cases hc
  · intro k hk hnr hp
    by_cases hkj : k = j
    · subst hkj; exact hf hp
    · exact inv.found k hk (fun hm => hnr ((hmem k).2 ⟨hkj, hm⟩)) hp

theorem RInv_publish (url : String) (net : Net) (j : Nat) (u : String) (s : RState)
    (inv : RInv url net s) (hj : j ∈ s.running) (hp : probe url net j = some u) :
    RInv url net (publish u s) ∧ (publish u s).published ≠ [] := by
  obtain ⟨f1, f2, f3, f4, f5, f6⟩ := publish_frame u s
  have hjl : j < paths.length := Nat.lt_of_lt_of_le (inv.run j hj) inv.nle
  have hnc : s.closed = false := by
    cases hc : s.closed with
    | false => rfl
    | true =>
      have := (inv.closed hc).2
      rw [this] at hj; cases hj
  by_cases hfree : s.rssChan = none
  · obtain ⟨g1, g2, _⟩ := publish_free u s hfree
    refine ⟨⟨by rw [f1]; exact inv.nle, by rw [f2, f3]; exact inv.sem,
      by rw [f4, f3]; exact inv.wg, by rw [f3]; exact inv.capb, by rw [f3]; exact inv.nodup,
      by rw [f3, f1]; exact inv.run, by rw [f5, f1, f3]; exact inv.closed,
      ?_, ?_, ?_, ?_, ?_⟩, ?_⟩
    · intro hr
      rw [f6] at hr
      obtain ⟨h1, _⟩ := inv.slot hr
      rw [hfree] at h1
      have hnil : s.published = [] := by
        cases hpl : s.published with
        | nil => rfl
        | cons a l => rw [hpl] at h1; cases h1
      rw [g1, g2, hnil]
      exact ⟨rfl, le_refl _⟩
    · intro v _; rw [g2]; simp
    · intro r hr
      rw [f6] at hr
      rcases inv.ret r hr with h | ⟨_, _, hc⟩
      · left
        rw [g2]
        cases hpl : s.published with
        | nil => rw [hpl] at h; cases h
        | cons a l => rw [hpl] at h; simpa using h
      · rw [hnc] at hc; cases hc
    · intro v hv
      rw [g2] at hv
      rcases List.mem_append.1 hv with h | h
      · exact inv.pub v h
      · rw [List.mem_singleton] at h
        subst h
        exact ⟨j, hjl, hp⟩
    · intro k hk hnr _
      rw [g2]; simp
    · rw [g2]; simp
  · obtain ⟨g1, g2, _⟩ := publish_full u s hfree
    have hne : s.published ≠ [] := by
      cases hch : s.rssChan with
      | none => exact absurd hch hfree
      | some v => exact inv.chan v hch
    refine ⟨⟨by rw [f1]; exact inv.nle, by rw [f2, f3]; exact inv.sem,
      by rw [f4, f3]; exact inv.wg, by rw [f3]; exact inv.capb, by rw [f3]; exact inv.nodup,
      by rw [f3, f1]; exact inv.run, by rw [f5, f1, f3]; exact inv.closed,
      by rw [f6, g1, g2]; exact inv.slot, by rw [g1, g2]; exact inv.chan,
      by rw [f6, g2, f5]; exact inv.ret, by rw [g2]; exact inv.pub,
      by rw [f1, f3, g2]; exact inv.found⟩, by rw [g2]; exact hne⟩

theorem RInv_step (url : String) (net : Net) (a : RAction) (s s' : RState)
    (inv : RInv url net s) (h : rstep url net a s = some s') : RInv url net s' := by
  cases a with
  | launch =>
    simp only [rstep] at h
    by_cases hc : s.next < paths.length ∧ s.semaphore < cap
    · rw [if_pos hc] at h
      cases h
      have hnot : s.next ∉ s.running := fun hm => Nat.lt_irrefl _ (inv.run _ hm)
      refine ⟨hc.1, ?_, ?_, ?_, List.nodup_cons.2 ⟨hnot, inv.nodup⟩, ?_, ?_, inv.slot,
        inv.chan, inv.ret, inv.pub, ?_⟩
      · simp [inv.sem]
      · simp [inv.wg]
      · have := inv.sem; have := hc.2
        simp only [List.length_cons]; omega
      · intro j hj
        rcases List.mem_cons.1 hj with rfl | hj
        · exact Nat.lt_succ_self _
        · exact Nat.lt_succ_of_lt (inv.run j hj)
      · intro hcl
        have := (inv.closed hcl).1
        have := hc.1
        omega
      · intro k hk hnr hp
        have hne : k ≠ s.next := fun e => hnr (e ▸ List.mem_cons_self _ _)
        have hk' : k < s.next := by
          rcases Nat.lt_succ_iff_lt_or_eq.1 hk with h1 | h1
          · exact h1
          · exact absurd h1 hne
        exact inv.found k hk' (fun hm => hnr (List.mem_cons_of_mem _ hm)) hp
    · rw [if_neg hc] at h; cases h
  | finish j =>
    simp only [rstep] at h
    by_cases hj : j ∈ s.running
    · rw [if_pos hj] at h
      cases hp : probe url net j with
      | none =>
        simp only [hp, Option.some.injEq] at h
        subst h
        exact RInv_taskExit url net j s inv hj (fun hne => absurd hp hne)
      | some u =>
        simp only [hp] at h
        cases hcl : s.closed with
        | true => simp [hcl] at h
        | false =>
          simp only [hcl, Bool.false_eq_true, if_false, Option.some.injEq] at h
          subst h
          obtain ⟨inv', hne⟩ := RInv_publish url net j u s inv hj hp
          exact RInv_taskExit url net j (publish u s) inv'
            (by rw [(publish_frame u s).2.2.1]; exact hj) (fun _ => hne)
    · rw [if_neg hj] at h; cases h
  | close =>
    simp only [rstep] at h
    by_cases hc : s.next = paths.length ∧ s.wg = 0 ∧ s.closed = false
    · rw [if_pos hc] at h
      cases h
      refine ⟨inv.nle, inv.sem, inv.wg, inv.capb, inv.nodup, inv.run, ?_, inv.slot, inv.chan,
        ?_, inv.pub, inv.found⟩
      · intro _
        refine ⟨hc.1, ?_⟩
        have := inv.wg
        rw [hc.2.1] at this
        exact List.length_eq_zero.1 this.symm
      · intro r hr
        rcases inv.ret r hr with h1 | ⟨_, _, h3⟩
        · exact Or.inl h1
        · rw [hc.2.2] at h3; cases h3
    · rw [if_neg hc] at h; cases h
  | recv =>
    simp only [rstep] at h
    by_cases hc : s.next = paths.length ∧ s.ret = none
    · rw [if_pos hc] at h
      obtain ⟨hslot, hlen⟩ := inv.slot hc.2
      cases hch : s.rssChan with
      | some u =>
        simp only [hch, Option.some.injEq] at h
        subst h
        refine ⟨inv.nle, inv.sem, inv.wg, inv.capb, inv.nodup, inv.run, inv.closed, ?_, ?_, ?_,
          inv.pub, inv.found⟩
        · intro hr; cases hr
        · intro v hv; cases hv
        · intro r hr
          left
          rw [← hslot, hch]
          exact hr
      | none =>
        simp only [hch] at h
        by_cases hcl : s.closed = true
        case neg => rw [if_neg hcl] at h; cases h
        case pos =>
          rw [if_pos hcl] at h
          cases h
          have hnil : s.published = [] := by
            rw [hch] at hslot
            cases hpl : s.published with
            | nil => rfl
            | cons a l => rw [hpl] at hslot; cases hslot
          refine ⟨inv.nle, inv.sem, inv.wg, inv.capb, inv.nodup, inv.run, inv.closed, ?_,
            ?_, ?_, inv.pub, inv.found⟩
          · intro hr; cases hr
          · intro v hv; cases hv
          · intro r hr
            right
            exact ⟨(Option.some.inj hr).symm, hnil, hcl⟩
    · rw [if_neg hc] at h; cases h

theorem RInv_of_reachable (url : String) (net : Net) (s : RState)
    (h : RReachable url net s) : RInv url net s := by
  induction h with
  | init => exact RInv_init url net
  | step a _ hs ih => exact RInv_step url net a _ _ ih hs

theorem rstep_progress (url : String) (net : Net) (s : RState) (inv : RInv url net s)
    (hr : s.ret = none) : ∃ a s', rstep url net a s = some s' := by
  have hfin : ∀ j, j ∈ s.running → ∃ a s', rstep url net a s = some s' := by
    intro j hj
    have hnc : ¬ s.closed = true := by
      intro hc
      have := (inv.closed hc).2
      rw [this] at hj; cases hj
    refine ⟨RAction.finish j, ?_⟩
    simp only [rstep]
    rw [if_pos hj]
    cases hp : probe url net j with
    | none => exact ⟨_, rfl⟩
    | some u =>
      simp only []
      rw [if_neg hnc]
      exact ⟨_, rfl⟩
  by_cases hn : s.next < paths.length
  · by_cases hc : s.semaphore < cap
    · refine ⟨RAction.launch, ?_⟩
      simp only [rstep]
      rw [if_pos ⟨hn, hc⟩]
      exact ⟨_, rfl⟩
    · have hpos : 0 < s.running.length := by
        have := inv.sem
        have : 0 < cap := by decide
        omega
      obtain ⟨j, hj⟩ := List.exists_mem_of_length_pos hpos
      exact hfin j hj
  · have hnl : s.next = paths.length := le_antisymm inv.nle (not_lt.1 hn)
    cases hrun : s.running with
    | cons j t => exact hfin j (by rw [hrun]; exact List.mem_cons_self _ _)
    | nil =>
      have hwg : s.wg = 0 := by rw [inv.wg, hrun]; rfl
      by_cases hcl : s.closed = true
      · refine ⟨RAction.recv, ?_⟩
        simp only [rstep]
        rw [if_pos ⟨hnl, hr⟩]
        cases hch : s.rssChan with
        | some u => exact ⟨_, rfl⟩
        | none =>
          simp only []
          rw [if_pos hcl]
          exact ⟨_, rfl⟩
      · have hcl' : s.closed = false := by simpa using hcl
        refine ⟨RAction.close, { s with closed := true }, ?_⟩
        simp only [rstep]
        rw [if_pos ⟨hnl, hwg, hcl'⟩]

theorem rstep_measure (url : String) (net : Net) (a : RAction) (s s' : RState)
    (h : rstep url net a s = some s') : rmeasure s' < rmeasure s := by
  cases a with
  | launch =>
    simp only [rstep] at h
    by_cases hc : s.next < paths.length ∧ s.semaphore < cap
    · rw [if_pos hc] at h
      cases h
      have := hc.1
      simp only [rmeasure, List.length_cons]
      omega
    · rw [if_neg hc] at h; cases h
  | finish j =>
    simp only [rstep] at h
    by_cases hj : j ∈ s.running
    · rw [if_pos hj] at h
      have hlen : (s.running.erase j).length = s.running.length - 1 :=
        List.length_erase_of_mem hj
      have hpos : 0 < s.running.length := List.length_pos_of_mem hj
      cases hp : probe url net j with
      | none =>
        simp only [hp, Option.some.injEq] at h
        subst h
        simp only [rmeasure, taskExit, hlen]
        omega
      | some u =>
        simp only [hp] at h
        by_cases hcl : s.closed = true
        · rw [if_pos hcl] at h; cases h
        · rw [if_neg hcl] at h
          cases h
          obtain ⟨f1, _, f3, _, f5, f6⟩ := publish_frame u s
          simp only [rmeasure, taskExit, f1, f3, f5, f6, hlen]
          omega
    · rw [if_neg hj] at h; cases h
  | close =>
    simp only [rstep] at h
    by_cases hc : s.next = paths.length ∧ s.wg = 0 ∧ s.closed = false
    · rw [if_pos hc] at h
      cases h
      simp [rmeasure, hc.2.2]
    · rw [if_neg hc] at h; cases h
  | recv =>
    simp only [rstep] at h
    by_cases hc : s.next = paths.length ∧ s.ret = none
    · rw [if_pos hc] at h
      cases hch : s.rssChan with
      | some u =>
        simp only [hch, Option.some.injEq] at h
        subst h
        simp [rmeasure, hc.2]
      | none =>
        simp only [hch] at h
        by_cases hcl : s.closed = true
        · rw [if_pos hcl] at h
          cases h
          simp [rmeasure, hc.2]
        · rw [if_neg hcl] at h; cases h
    · rw [if_neg hc] at h; cases h

theorem rstep_stable (url : String) (net : Net) (a : RAction) (s s' : RState)
    (h : rstep url net a s = some s') (r : String) :
    (s.ret = some r → s'.ret = some r) ∧
      (s.published.head? = some r → s'.published.head? = some r) := by
  cases a with
  | launch =>
    simp only [rstep] at h
    by_cases hc : s.next < paths.length ∧ s.semaphore < cap
    · rw [if_pos hc] at h
      cases h
      exact ⟨id, id⟩
    · rw [if_neg hc] at h; cases h
  | finish j =>
    simp only [rstep] at h
    by_cases hj : j ∈ s.running
    · rw [if_pos hj] at h
      cases hp : probe url net j with
      | none =>
        simp only [hp, Option.some.injEq] at h
        subst h
        exact ⟨id, id⟩
      | some u =>
        simp only [hp] at h
        by_cases hcl : s.closed = true
        · rw [if_pos hcl] at h; cases h
        · rw [if_neg hcl] at h
          cases h
          refine ⟨fun hr => ?_, fun hh => ?_⟩
          · show (publish u s).ret = some r
            rw [(publish_frame u s).2.2.2.2.2]; exact hr
          · show (publish u s).published.head? = some r
            by_cases hfree : s.rssChan = none
            · rw [(publish_free u s hfree).2.1]
              cases hpl : s.published with
              | nil => rw [hpl] at hh; cases hh
              | cons x l => rw [hpl] at hh; simpa using hh
            · rw [(publish_full u s hfree).2.1]; exact hh
    · rw [if_neg hj] at h; cases h
  | close =>
    simp only [rstep] at h
    by_cases hc : s.next = paths.length ∧ s.wg = 0 ∧ s.closed = false
    · rw [if_pos hc] at h
      cases h
      exact ⟨id, id⟩
    · rw [if_neg hc] at h; cases h
  | recv =>
    simp only [rstep] at h
    by_cases hc : s.next = paths.length ∧ s.ret = none
    · rw [if_pos hc] at h
      refine ⟨fun hr => ?_, fun hh => ?_⟩
      · rw [hc.2] at hr; cases hr
      · cases hch : s.rssChan with
        | some u =>
          simp only [hch, Option.some.injEq] at h
          subst h
          exact hh
        | none =>
          simp only [hch] at h
          by_cases hcl : s.closed = true
          · rw [if_pos hcl] at h
            cases h
            exact hh
          · rw [if_neg hcl] at h; cases h
    · rw [if_neg hc] at h; cases h

theorem rrun_reachable (url : String) (net : Net) :
    ∀ (as : List RAction) (s s' : RState), RReachable url net s →
      rrun url net as s = some s' → RReachable url net s' := by
  intro as
  induction as with
  | nil =>
    intro s s' hs h
    simp only [rrun, Option.some.injEq] at h
    subst h
    exact hs
  | cons a as ih =>
    intro s s' hs h
    simp only [rrun] at h
    cases hstep : rstep url net a s with
    | none => simp [hstep] at h
    | some s1 =>
      simp only [hstep] at h
      exact ih s1 s' (RReachable.step a hs hstep) h

theorem idle_reachable (url : String) (net : Net) :
    ∀ k : Nat, k ≤ paths.length → (∀ j, j < k → probe url net j = none) →
      RReachable url net (idle k) := by
  intro k
  induction k with
  | zero => intro _ _; exact RReachable.init
  | succ k ih =>
    intro hk hnone
    have h0 := ih (Nat.le_of_succ_le hk) (fun j hj => hnone j (Nat.lt_succ_of_lt hj))
    have hp : probe url net k = none := hnone k (Nat.lt_succ_self k)
    have hlt : k < paths.length := Nat.lt_of_succ_le hk
    have hcap : (0 : Nat) < cap := by decide
    have h1 : rstep url net RAction.launch (idle k) = some
        { next := k + 1, semaphore := 1, running := [k], wg := 1, rssChan := none,
          closed := false, ret := none, published := [], dropped := [] } := by
      simp only [rstep]
      rw [if_pos ⟨hlt, hcap⟩]
      rfl
    have h2 : rstep url net (RAction.finish k)
        { next := k + 1, semaphore := 1, running := [k], wg := 1, rssChan := none,
          closed := false, ret := none, published := [], dropped := [] }
        = some (idle (k + 1)) := by
      simp only [rstep]
      rw [if_pos (List.mem_singleton_self k), hp]
      simp [taskExit, idle]
    exact RReachable.step _ (RReachable.step _ h0 h1) h2

/-! ## `findRSSFeed`: single steps -/

theorem rstep_launch (url : String) (net : Net) (s : RState)
    (h1 : s.next < paths.length) (h2 : s.semaphore < cap) :
    rstep url net RAction.launch s =
      some { s with next := s.next + 1, semaphore := s.semaphore + 1, wg := s.wg + 1,
                    running := s.next :: s.running } := by
  simp only [rstep]
  rw [if_pos ⟨h1, h2⟩]

theorem rstep_finish_found (url : String) (net : Net) (s : RState) (j : Nat) (u : String)
    (hj : j ∈ s.running) (hp : probe url net j = some u) (hc : s.closed = false) :
    rstep url net (RAction.finish j) s = some (taskExit j (publish u s)) := by
  simp only [rstep]
  rw [if_pos hj, hp]
  simp only []
  rw [if_neg (by rw [hc]; decide)]

theorem rstep_close (url : String) (net : Net) (s : RState)
    (h1 : s.next = paths.length) (h2 : s.wg = 0) (h3 : s.closed = false) :
    rstep url net RAction.close s = some { s with closed := true } := by
  simp only [rstep]
  rw [if_pos ⟨h1, h2, h3⟩]

theorem rstep_recv_value (url : String) (net : Net) (s : RState) (u : String)
    (h1 : s.next = paths.length) (h2 : s.ret = none) (h3 : s.rssChan = some u) :
    rstep url net RAction.recv s = some { s with ret := some u, rssChan := none } := by
  simp only [rstep]
  rw [if_pos ⟨h1, h2⟩, h3]

theorem rstep_recv_closed (url : String) (net : Net) (s : RState)
    (h1 : s.next = paths.length) (h2 : s.ret = none) (h3 : s.rssChan = none)
    (h4 : s.closed = true) :
    rstep url net RAction.recv s = some { s with ret := some "" } := by
  simp only [rstep]
  rw [if_pos ⟨h1, h2⟩, h3]
  simp only []
  rw [if_pos h4]

theorem idle_close_recv (url : String) (net : Net) (n : Nat) (hn : n = paths.length)
    (h0 : RReachable url net (idle n)) :
    RReachable url net
      { next := n, semaphore := 0, running := [], wg := 0, rssChan := none, closed := true,
        ret := some "", published := [], dropped := [] } := by
  have h1 := RReachable.step _ h0 (rstep_close url net (idle n) hn rfl rfl)
  exact RReachable.step _ h1 (rstep_recv_closed url net _ hn rfl rfl rfl)

theorem returnedEmpty_reachable (url : String) : RReachable url netDown returnedEmpty :=
  idle_close_recv url netDown paths.length rfl
    (idle_reachable url netDown paths.length (le_refl _) (fun _ _ => rfl))

theorem netTwo_early (url : String) (j : Nat) (hj : j < 958) : probe url netTwo j = none := by
  have h1 : j ≠ 958 := by omega
  have h2 : j ≠ 959 := by omega
  simp [probe, netTwo, h1, h2, probeTask]

theorem netTwo_958 (url : String) : probe url netTwo 958 = some "https://example.com/a" := by
  unfold probe netTwo
  rfl

theorem netTwo_959 (url : String) : probe url netTwo 959 = some "https://example.com/b" := by
  unfold probe netTwo
  rfl

theorem twoPublished_reachable (url : String) : RReachable url netTwo twoPublished := by
  have hcap1 : (0 : Nat) < cap := by decide
  have hcap2 : (1 : Nat) < cap := by decide
  have hl958 : 958 < paths.length := by rw [paths_length]; decide
  have hl959 : 959 < paths.length := by rw [paths_length]; decide
  have hl960 : 960 = paths.length := paths_length.symm
  have h0 : RReachable url netTwo (idle 958) :=
    idle_reachable url netTwo 958 (Nat.le_of_lt hl958) (fun j hj => netTwo_early url j hj)
  have h1 : RReachable url netTwo
      { next := 959, semaphore := 1, running := [958], wg := 1, rssChan := none, closed := false,
        ret := none, published := [], dropped := [] } :=
    RReachable.step _ h0 (rstep_launch url netTwo (idle 958) hl958 hcap1)
  have h2 : RReachable url netTwo
      { next := 960, semaphore := 2, running := [959, 958], wg := 2, rssChan := none,
        closed := false, ret := none, published := [], dropped := [] } :=
    RReachable.step _ h1 (rstep_launch url netTwo _ hl959 hcap2)
  have h3 : RReachable url netTwo
      { next := 960, semaphore := 1, running := [959], wg := 1,
        rssChan := some "https://example.com/a", closed := false, ret := none,
        published := ["https://example.com/a"], dropped := [] } :=
    RReachable.step _ h2
      (rstep_finish_found url netTwo _ 958 _ (by decide) (netTwo_958 url) rfl)
  have h4 : RReachable url netTwo
      { next := 960, semaphore := 1, running := [959], wg := 1, rssChan := none, closed := false,
        ret := some "https://example.com/a", published := ["https://example.com/a"],
        dropped := [] } :=
    RReachable.step _ h3 (rstep_recv_value url netTwo _ _ hl960 rfl rfl)
  exact RReachable.step _ h4
    (rstep_finish_found url netTwo _ 959 _ (by decide) (netTwo_959 url) rfl)

theorem twoInFlight_reachable (url : String) (net : Net) : RReachable url net twoInFlight := by
  have hcap1 : (0 : Nat) < cap := by decide
  have hcap2 : (1 : Nat) < cap := by decide
  have hl0 : 0 < paths.length := by rw [paths_length]; decide
  have hl1 : 1 < paths.length := by rw [paths_length]; decide
  have h1 : RReachable url net
      { next := 1, semaphore := 1, running := [0], wg := 1, rssChan := none, closed := false,
        ret := none, published := [], dropped := [] } :=
    RReachable.step _ RReachable.init (rstep_launch url net rinit hl0 hcap1)
  exact RReachable.step _ h1 (rstep_launch url net _ hl1 hcap2)

theorem rrun_complete (url : String) (net : Net) :
    ∀ (n : Nat) (s : RState), RInv url net s → rmeasure s ≤ n →
      ∃ sched s' r, rrun url net sched s = some s' ∧ s'.ret = some r := by
  intro n
  induction n with
  | zero =>
    intro s inv hn
    cases hr : s.ret with
    | some r => exact ⟨[], s, r, rfl, hr⟩
    | none =>
      obtain ⟨a, s1, h1⟩ := rstep_progress url net s inv hr
      have := rstep_measure url net a s s1 h1
      omega
  | succ n ih =>
    intro s inv hn
    cases hr : s.ret with
    | some r => exact ⟨[], s, r, rfl, hr⟩
    | none =>
      obtain ⟨a, s1, h1⟩ := rstep_progress url net s inv hr
      have hlt := rstep_measure url net a s s1 h1
      obtain ⟨sched, s2, r, h2, hr2⟩ :=
        ih s1 (RInv_step url net a s s1 inv h1) (by omega)
      refine ⟨a :: sched, s2, r, ?_, hr2⟩
      simp only [rrun, h1]
      exact h2

theorem findRSSFeed_reachable (url : String) (net : Net) (sched : List RAction)
    (r : String) (h : findRSSFeed url net sched = some r) :
    ∃ s, RReachable url net s ∧ s.ret = some r := by
  unfold findRSSFeed at h
  cases hr : rrun url net sched rinit with
  | none => simp [hr] at h
  | some s =>
    simp only [hr] at h
    exact ⟨s, rrun_reachable url net sched _ s RReachable.init hr, h⟩

theorem findRSSFeed_complete (url : String) (net : Net) :
    ∃ sched r, findRSSFeed url net sched = some r := by
  obtain ⟨sched, s, r, h, hr⟩ :=
    rrun_complete url net _ rinit (RInv_init url net) (le_refl _)
  refine ⟨sched, r, ?_⟩
  unfold findRSSFeed
  simp only [h]
  exact hr

theorem ret_is_first_published (url : String) (net : Net)
    (hfound : ∃ j, j < paths.length ∧ probe url net j ≠ none)
    (s : RState) (inv : RInv url net s) (r : String) (hr : s.ret = some r) :
    s.published.head? = some r ∧ ∃ j, j < paths.length ∧ probe url net j = some r := by
  have hhead : s.published.head? = some r := by
    rcases inv.ret r hr with h | ⟨_, hnil, hcl⟩
    · exact h
    · obtain ⟨j, hj, hp⟩ := hfound
      obtain ⟨hn, hrun⟩ := inv.closed hcl
      exact absurd hnil (inv.found j (by rw [hn]; exact hj) (by rw [hrun]; simp) hp)
  refine ⟨hhead, inv.pub r ?_⟩
  cases hpl : s.published with
  | nil => rw [hpl] at hhead; cases hhead
  | cons x l =>
    rw [hpl] at hhead
    simp only [List.head?_cons, Option.some.injEq] at hhead
    rw [hhead]
    exact List.mem_cons_self _ _

theorem ret_is_empty (url : String) (net : Net)
    (hnone : ∀ j, j < paths.length → probe url net j = none)
    (s : RState) (inv : RInv url net s) :
    s.published = [] ∧ s.rssChan = none ∧ ∀ r, s.ret = some r → r = "" ∧ s.closed = true := by
  have hnil : s.published = [] := by
    cases hpl : s.published with
    | nil => rfl
    | cons x l =>
      obtain ⟨j, hj, hp⟩ := inv.pub x (by rw [hpl]; exact List.mem_cons_self _ _)
      rw [hnone j hj] at hp
      cases hp
  have hch : s.rssChan = none := by
    cases hc : s.rssChan with
    | none => rfl
    | some v => exact absurd hnil (inv.chan v hc)
  refine ⟨hnil, hch, ?_⟩
  intro r hr
  rcases inv.ret r hr with h | ⟨h1, _, h3⟩
  · rw [hnil] at h; cases h
  · exact ⟨h1, h3⟩

/-! ## `findRSSFeed` and the permit pools: claims -/

/-- C7 fails on the code as stated: on `netTwo` the schedule that lets candidate 958
publish, then the receive of line 159 take the value and return it, then candidate 959
finish, reaches a state in which the second publish attempt was not dropped: the send
went through into the emptied slot of `rssChan`, and nothing was dropped.  So it is
not true that at most one send goes through in every reachable state. -/
theorem later_publish_not_dropped :
    RReachable "https://example.com" netTwo twoPublished
    ∧ twoPublished.ret = some "https://example.com/a"
    ∧ twoPublished.published = ["https://example.com/a", "https://example.com/b"]
    ∧ twoPublished.rssChan = some "https://example.com/b"
    ∧ twoPublished.dropped = []
    ∧ ¬ (∀ s, RReachable "https://example.com" netTwo s → s.published.length ≤ 1) :=
  ⟨twoPublished_reachable "https://example.com", rfl, rfl, rfl, rfl,
    fun h => absurd (h twoPublished (twoPublished_reachable "https://example.com"))
      (by decide)⟩

/-- C7, amended: if some candidate classifies as Found, then `findRSSFeed` returns
under every order in which the probes complete (before the return some step is enabled,
every step lowers `rmeasure`, and a complete run exists), and what it returns is the
first value published on `rssChan`, which is the final URL of a Found probe.  Until the
return at most one send has gone through, so a publish attempt made while the first
value is in the slot is dropped; no later step changes the returned value or the first
published value. -/
theorem first_published_is_returned (url : String) (net : Net)
    (hfound : ∃ j, j < paths.length ∧ probe url net j ≠ none) :
    (∀ s, RReachable url net s →
      (s.ret = none → ∃ a s', rstep url net a s = some s')
      ∧ (∀ a s', rstep url net a s = some s' → rmeasure s' < rmeasure s)
      ∧ (∀ r, s.ret = some r → s.published.head? = some r ∧
          ∃ j, j < paths.length ∧ probe url net j = some r)
      ∧ (s.ret = none → s.published.length ≤ 1 ∧ s.rssChan = s.published.head?)
      ∧ (∀ a s' r, rstep url net a s = some s' →
          (s.ret = some r → s'.ret = some r) ∧
          (s.published.head? = some r → s'.published.head? = some r)))
    ∧ (∃ sched r, findRSSFeed url net sched = some r)
    ∧ (∀ sched r, findRSSFeed url net sched = some r →
        ∃ j, j < paths.length ∧ probe url net j = some r) := by
  refine ⟨fun s hs => ?_, findRSSFeed_complete url net, ?_⟩
  · have inv := RInv_of_reachable url net s hs
    exact ⟨rstep_progress url net s inv, fun a s' h => rstep_measure url net a s s' h,
      fun r hr => ret_is_first_published url net hfound s inv r hr,
      fun hr => ⟨(inv.slot hr).2, (inv.slot hr).1⟩,
      fun a s' r h => rstep_stable url net a s s' h r⟩
  · intro sched r h
    obtain ⟨s, hs, hr⟩ := findRSSFeed_reachable url net sched r h
    exact (ret_is_first_published url net hfound s (RInv_of_reachable url net s hs) r hr).2

/-- Witness of C7, amended: on `netTwo`, in the state `twoPublished`, the returned URL
is the first published one and comes from a Found probe. -/
theorem first_published_is_returned_witness :
    (∃ j, j < paths.length ∧ probe "https://example.com" netTwo j ≠ none)
    ∧ RReachable "https://example.com" netTwo twoPublished
    ∧ (∀ r, twoPublished.ret = some r → twoPublished.published.head? = some r ∧
        ∃ j, j < paths.length ∧ probe "https://example.com" netTwo j = some r) :=
  have hf : ∃ j, j < paths.length ∧ probe "https://example.com" netTwo j ≠ none :=
    ⟨958, by rw [paths_length]; decide, by rw [netTwo_958]; exact Option.some_ne_none _⟩
  ⟨hf, twoPublished_reachable "https://example.com",
    ((first_published_is_returned "https://example.com" netTwo hf).1 twoPublished
      (twoPublished_reachable "https://example.com")).2.2.1⟩

/-- C8: if none of the 960 candidates classifies as Found, then `findRSSFeed` returns
under every schedule (before the return some step is enabled, every step lowers
`rmeasure`, and a complete run exists), what it returns is the empty string, nothing is
ever published, and `rssChan` is closed only when every probing goroutine has been
launched and has finished. -/
theorem no_found_returns_empty (url : String) (net : Net)
    (hnone : ∀ j, j < paths.length → probe url net j = none) :
    paths.length = 960
    ∧ (∀ s, RReachable url net s →
        (s.ret = none → ∃ a s', rstep url net a s = some s')
        ∧ (∀ a s', rstep url net a s = some s' → rmeasure s' < rmeasure s)
        ∧ (∀ r, s.ret = some r → r = "" ∧ s.closed = true)
        ∧ s.published = [] ∧ s.rssChan = none
        ∧ (s.closed = true → s.next = paths.length ∧ s.running = []))
    ∧ (∃ sched r, findRSSFeed url net sched = some r)
    ∧ (∀ sched r, findRSSFeed url net sched = some r → r = "") := by
  refine ⟨paths_length, fun s hs => ?_, findRSSFeed_complete url net, ?_⟩
  · have inv := RInv_of_reachable url net s hs
    obtain ⟨h1, h2, h3⟩ := ret_is_empty url net hnone s inv
    exact ⟨rstep_progress url net s inv, fun a s' h => rstep_measure url net a s s' h,
      h3, h1, h2, inv.closed⟩
  · intro sched r h
    obtain ⟨s, hs, hr⟩ := findRSSFeed_reachable url net sched r h
    exact ((ret_is_empty url net hnone s (RInv_of_reachable url net s hs)).2.2 r hr).1

/-- Witness of C8: on `netDown` the call reaches the state `returnedEmpty`, where the
empty string has been returned on the closed channel. -/
theorem no_found_returns_empty_witness :
    (∀ j, j < paths.length → probe "https://example.com" netDown j = none)
    ∧ RReachable "https://example.com" netDown returnedEmpty
    ∧ returnedEmpty.ret = some ""
    ∧ (∀ r, returnedEmpty.ret = some r → r = "" ∧ returnedEmpty.closed = true) :=
  ⟨fun _ _ => rfl, returnedEmpty_reachable "https://example.com", rfl,
    ((no_found_returns_empty "https://example.com" netDown (fun _ _ => rfl)).2.1
      returnedEmpty (returnedEmpty_reachable "https://example.com")).2.2.1⟩

/-- C10: in every reachable state of `findRSSFeed` at most 10 probing goroutines are in
flight, and in every reachable state of the batch loop of `main` at most 10 site
goroutines are in flight; in both, the goroutines in flight are as many as the permits
taken from the pool of capacity 10. -/
theorem permits_bounded :
    (∀ (url : String) (net : Net) (s : RState), RReachable url net s →
      s.running.length ≤ 10 ∧ s.semaphore = s.running.length ∧ s.semaphore ≤ 10)
    ∧ (∀ (sites : List Site) (find : Resolver) (s : MState), MReachable sites find s →
      s.running.length ≤ 10 ∧ s.semaphore = s.running.length ∧ s.semaphore ≤ 10) := by
  constructor
  · intro url net s hs
    have inv := RInv_of_reachable url net s hs
    exact ⟨inv.capb, inv.sem, by rw [inv.sem]; exact inv.capb⟩
  · intro sites find s hs
    have inv := MInv_of_reachable sites find s hs
    exact ⟨inv.capb, inv.sem, by rw [inv.sem]; exact inv.capb⟩

/-- Witness of C10: a state of `findRSSFeed` with two probes in flight and a state of
the batch loop with one site in flight. -/
theorem permits_bounded_witness :
    (RReachable "https://example.com" netDown twoInFlight ∧ twoInFlight.running.length ≤ 10)
    ∧ (MReachable sitesFresh findNothing
        { sites := sitesFresh, i := 1, semaphore := 1, running := [0], wg := 1, waited := false }
      ∧ ({ sites := sitesFresh, i := 1, semaphore := 1, running := [0], wg := 1,
           waited := false } : MState).running.length ≤ 10) :=
  have h1 := twoInFlight_reachable "https://example.com" netDown
  have h2 : MReachable sitesFresh findNothing
      { sites := sitesFresh, i := 1, semaphore := 1, running := [0], wg := 1, waited := false } :=
    mrun_reachable sitesFresh findNothing [MAction.iter] _ _ MReachable.init (by decide)
  ⟨⟨h1, (permits_bounded.1 _ _ _ h1).1⟩, ⟨h2, (permits_bounded.2 _ _ _ h2).1⟩⟩

end FindRSS
